import Mathlib

/-!
# Verification of the resume-analyzer core

Shallow embedding of `backend/app/resume_analyzer.py` and the PDF endpoint of
`backend/app/main.py`.  Python strings are modelled as `List Char` (`Str`),
restricted to the ASCII behaviour of the Python string functions used by the
code.  Floating-point values produced by the external TF-IDF/cosine pipeline
are modelled as an exact rational parameter `sim` (the scorer contract is a
similarity in `[0, 1]`); `Python round(x, 2)` is modelled as exact
round-half-to-even on rationals.
-/

/-- Python strings, modelled as lists of characters. -/
abbrev Str := List Char

/-- The characters matched by Python's regex `\s` (ASCII range), which is also
the set stripped by `str.strip()` and split on by `str.split()` for ASCII
input: space, tab, newline, carriage return, vertical tab, form feed. -/
def pyIsSpace (c : Char) : Bool :=
  c = ' ' || c = '\t' || c = '\n' || c = '\r' || c = '\x0b' || c = '\x0c'

/-- Membership in Python's `string.punctuation`
(`!"#$%&'()*+,-./:;<=>?@[\]^_`{|}~`), i.e. the ASCII code ranges
33–47, 58–64, 91–96 and 123–126. -/
def isPunct (c : Char) : Bool :=
  (33 ≤ c.toNat && c.toNat ≤ 47) || (58 ≤ c.toNat && c.toNat ≤ 64) ||
  (91 ≤ c.toNat && c.toNat ≤ 96) || (123 ≤ c.toNat && c.toNat ≤ 126)

/-- `text.replace("\n", " ")` from `clean_text`. -/
def replaceNewlines (t : Str) : Str :=
  t.map (fun c => if c = '\n' then ' ' else c)

/-- Helper for `re.sub(r"\s+", " ", text)`: replaces every maximal run of
whitespace characters by a single space.  The flag records whether the
previous character was part of a whitespace run already emitted. -/
def collapseAux (inRun : Bool) : Str → Str
  | [] => []
  | c :: cs =>
    if pyIsSpace c then
      if inRun then collapseAux true cs else ' ' :: collapseAux true cs
    else c :: collapseAux false cs

/-- `re.sub(r"\s+", " ", text)` (ASCII whitespace model). -/
def collapseWs (t : Str) : Str := collapseAux false t

/-- `str.strip()`: drop leading and trailing whitespace. -/
def stripWs (t : Str) : Str :=
  (t.dropWhile pyIsSpace).rdropWhile pyIsSpace

/-- `clean_text` from `resume_analyzer.py`: the falsy check (`if not text`),
newline replacement, whitespace-run collapse, and strip.  `None` input takes
the same falsy branch as the empty string and is represented by `[]`. -/
def clean_text (t : Str) : Str :=
  if t = [] then []
  else stripWs (collapseWs (replaceNewlines t))

/-- Splitter underlying `str.split()` (and the sklearn token pattern):
returns the maximal runs of characters satisfying `keep`, in order, dropping
empty pieces.  `cur` is the reversed current run. -/
def splitRunsAux (keep : Char → Bool) (cur : Str) : Str → List Str
  | [] => if cur = [] then [] else [cur.reverse]
  | c :: cs =>
    if keep c then splitRunsAux keep (c :: cur) cs
    else if cur = [] then splitRunsAux keep [] cs
    else cur.reverse :: splitRunsAux keep [] cs

/-- Maximal runs of characters satisfying `keep`. -/
def splitRuns (keep : Char → Bool) (t : Str) : List Str :=
  splitRunsAux keep [] t

/-- Python `str.split()` with no argument: split on whitespace runs,
discarding empty results. -/
def splitWs (t : Str) : List Str :=
  splitRuns (fun c => !(pyIsSpace c)) t

/-- `STOPWORDS` from `resume_analyzer.py`: the triple-quoted word list split
on whitespace, exactly as `set(""" ... """.split())` does (modelled as a list;
only membership is ever used). -/
def STOPWORDS : List Str :=
  splitWs ("\na an the and or but if while with without to from in on at for of by as is are was were be been being this that these those \nyou your their our my i they he she it we them his her its\n".toList)

/-- `tokenize` from `resume_analyzer.py`: lowercase, remove punctuation
(`str.translate` with `string.punctuation`), split on whitespace, and drop
stopwords and tokens of length ≤ 2.  `Char.toLower` is the ASCII lowercasing
that `str.lower()` performs on ASCII text. -/
def tokenize (text : Str) : List Str :=
  let lowered := text.map Char.toLower
  let stripped := lowered.filter (fun c => !(isPunct c))
  let tokens := splitWs stripped
  tokens.filter (fun t => !(STOPWORDS.contains t) && decide (2 < t.length))

/-- The distinct elements of a list in order of first occurrence: the key
order of `collections.Counter(tokens)` (dict insertion order).  `seen` is the
set of keys already produced. -/
def dedupFirstAux (seen : List Str) : List Str → List Str
  | [] => []
  | x :: xs =>
    if seen.contains x then dedupFirstAux seen xs
    else x :: dedupFirstAux (x :: seen) xs

/-- Distinct elements in first-occurrence order. -/
def dedupFirst (l : List Str) : List Str := dedupFirstAux [] l

/-- Stable insertion (descending by `key`): the new element goes after every
element whose key is at least as large, matching the stability of
`Counter.most_common`. -/
def insertByKeyDesc (key : Str → Nat) (x : Str) : List Str → List Str
  | [] => [x]
  | y :: ys =>
    if key x ≤ key y then y :: insertByKeyDesc key x ys
    else x :: y :: ys

/-- Stable sort, descending by `key`: the sort underlying
`Counter.most_common` (Python's sort is stable; `heapq.nlargest`, used for a
bounded `most_common`, is documented to agree with
`sorted(..., reverse=True)[:n]`). -/
def sortByKeyDesc (key : Str → Nat) (l : List Str) : List Str :=
  l.foldl (fun acc x => insertByKeyDesc key x acc) []

/-- `extract_keywords` from `resume_analyzer.py`: tokenize, return `[]` for an
empty token list, else the first `top_k` distinct tokens of
`Counter(tokens).most_common(top_k)` — distinct tokens in first-occurrence
order, stably sorted by descending occurrence count.  The Python default for
`top_k` is 25. -/
def extract_keywords (text : Str) (top_k : Nat := 25) : List Str :=
  let tokens := tokenize text
  if tokens = [] then []
  else (sortByKeyDesc (fun w => tokens.count w) (dedupFirst tokens)).take top_k

/-- Word characters of Python's regex `\w` (ASCII model): letters, digits and
underscore. -/
def isWordChar (c : Char) : Bool := c.isAlphanum || c = '_'

/-- The token analyzer of sklearn's `TfidfVectorizer` defaults: lowercase the
document, then take the matches of `\b\w\w+\b`, i.e. the maximal word-character
runs of length at least 2. -/
def sklearnTokens (doc : Str) : List Str :=
  (splitRuns isWordChar (doc.map Char.toLower)).filter (fun t => decide (2 ≤ t.length))

/-- sklearn's frozen `ENGLISH_STOP_WORDS` list, used by
`TfidfVectorizer(stop_words="english")`.  The list is the Glasgow IR stop
list and is kept verbatim, including its frozen misspelling `fify` (there is
no `fifty` in sklearn's list). -/
def SKLEARN_STOP_WORDS : List Str :=
  [
    "a".toList, "about".toList, "above".toList, "across".toList, "after".toList, "afterwards".toList, "again".toList, "against".toList,
    "all".toList, "almost".toList, "alone".toList, "along".toList, "already".toList, "also".toList, "although".toList, "always".toList,
    "am".toList, "among".toList, "amongst".toList, "amoungst".toList, "amount".toList, "an".toList, "and".toList, "another".toList,
    "any".toList, "anyhow".toList, "anyone".toList, "anything".toList, "anyway".toList, "anywhere".toList, "are".toList, "around".toList,
    "as".toList, "at".toList, "back".toList, "be".toList, "became".toList, "because".toList, "become".toList, "becomes".toList,
    "becoming".toList, "been".toList, "before".toList, "beforehand".toList, "behind".toList, "being".toList, "below".toList, "beside".toList,
    "besides".toList, "between".toList, "beyond".toList, "bill".toList, "both".toList, "bottom".toList, "but".toList, "by".toList,
    "call".toList, "can".toList, "cannot".toList, "cant".toList, "co".toList, "con".toList, "could".toList, "couldnt".toList,
    "cry".toList, "de".toList, "describe".toList, "detail".toList, "do".toList, "done".toList, "down".toList, "due".toList,
    "during".toList, "each".toList, "eg".toList, "eight".toList, "either".toList, "eleven".toList, "else".toList, "elsewhere".toList,
    "empty".toList, "enough".toList, "etc".toList, "even".toList, "ever".toList, "every".toList, "everyone".toList, "everything".toList,
    "everywhere".toList, "except".toList, "few".toList, "fifteen".toList, "fify".toList, "fill".toList, "find".toList, "fire".toList,
    "first".toList, "five".toList, "for".toList, "former".toList, "formerly".toList, "forty".toList, "found".toList, "four".toList,
    "from".toList, "front".toList, "full".toList, "further".toList, "get".toList, "give".toList, "go".toList, "had".toList,
    "has".toList, "hasnt".toList, "have".toList, "he".toList, "hence".toList, "her".toList, "here".toList, "hereafter".toList,
    "hereby".toList, "herein".toList, "hereupon".toList, "hers".toList, "herself".toList, "him".toList, "himself".toList, "his".toList,
    "how".toList, "however".toList, "hundred".toList, "i".toList, "ie".toList, "if".toList, "in".toList, "inc".toList,
    "indeed".toList, "interest".toList, "into".toList, "is".toList, "it".toList, "its".toList, "itself".toList, "keep".toList,
    "last".toList, "latter".toList, "latterly".toList, "least".toList, "less".toList, "ltd".toList, "made".toList, "many".toList,
    "may".toList, "me".toList, "meanwhile".toList, "might".toList, "mill".toList, "mine".toList, "more".toList, "moreover".toList,
    "most".toList, "mostly".toList, "move".toList, "much".toList, "must".toList, "my".toList, "myself".toList, "name".toList,
    "namely".toList, "neither".toList, "never".toList, "nevertheless".toList, "next".toList, "nine".toList, "no".toList, "nobody".toList,
    "none".toList, "noone".toList, "nor".toList, "not".toList, "nothing".toList, "now".toList, "nowhere".toList, "of".toList,
    "off".toList, "often".toList, "on".toList, "once".toList, "one".toList, "only".toList, "onto".toList, "or".toList,
    "other".toList, "others".toList, "otherwise".toList, "our".toList, "ours".toList, "ourselves".toList, "out".toList, "over".toList,
    "own".toList, "part".toList, "per".toList, "perhaps".toList, "please".toList, "put".toList, "rather".toList, "re".toList,
    "same".toList, "see".toList, "seem".toList, "seemed".toList, "seeming".toList, "seems".toList, "serious".toList, "several".toList,
    "she".toList, "should".toList, "show".toList, "side".toList, "since".toList, "sincere".toList, "six".toList, "sixty".toList,
    "so".toList, "some".toList, "somehow".toList, "someone".toList, "something".toList, "sometime".toList, "sometimes".toList, "somewhere".toList,
    "still".toList, "such".toList, "system".toList, "take".toList, "ten".toList, "than".toList, "that".toList, "the".toList,
    "their".toList, "them".toList, "themselves".toList, "then".toList, "thence".toList, "there".toList, "thereafter".toList, "thereby".toList,
    "therefore".toList, "therein".toList, "thereupon".toList, "these".toList, "they".toList, "thick".toList, "thin".toList, "third".toList,
    "this".toList, "those".toList, "though".toList, "three".toList, "through".toList, "throughout".toList, "thru".toList, "thus".toList,
    "to".toList, "together".toList, "too".toList, "top".toList, "toward".toList, "towards".toList, "twelve".toList, "twenty".toList,
    "two".toList, "un".toList, "under".toList, "until".toList, "up".toList, "upon".toList, "us".toList, "very".toList,
    "via".toList, "was".toList, "we".toList, "well".toList, "were".toList, "what".toList, "whatever".toList, "when".toList,
    "whence".toList, "whenever".toList, "where".toList, "whereafter".toList, "whereas".toList, "whereby".toList, "wherein".toList, "whereupon".toList,
    "wherever".toList, "whether".toList, "which".toList, "while".toList, "whither".toList, "who".toList, "whoever".toList, "whole".toList,
    "whom".toList, "whose".toList, "why".toList, "will".toList, "with".toList, "within".toList, "without".toList, "would".toList,
    "yet".toList, "you".toList, "your".toList, "yours".toList, "yourself".toList, "yourselves".toList]

/-- The vocabulary `TfidfVectorizer(stop_words="english")` builds over the
two-document corpus `[a, b]`: all analyzer tokens of either document that are
not English stop words, as a set (first-occurrence order).
`fit_transform` raises `ValueError("empty vocabulary ...")` exactly when this
is empty. -/
def tfidf_vocabulary (a b : Str) : List Str :=
  dedupFirst ((sklearnTokens a ++ sklearnTokens b).filter
    (fun t => !(SKLEARN_STOP_WORDS.contains t)))

/-- `compute_semantic_match` from `resume_analyzer.py`.  The numeric cosine
similarity is produced in floating point by the external sklearn pipeline and
is modelled by the parameter `sim`; what the embedding captures exactly is the
failure behaviour: the vectorizer raises (modelled as `Except.error ()`) iff
the two-document vocabulary is empty, and otherwise the call returns the
similarity value. -/
def compute_semantic_match (sim : ℚ) (resume_text jd_text : Str) : Except Unit ℚ :=
  if tfidf_vocabulary resume_text jd_text = [] then Except.error ()
  else Except.ok sim

/-- Round-half-to-even to an integer, the rounding Python's `round` uses. -/
def roundHalfEven (q : ℚ) : ℤ :=
  if q - ⌊q⌋ < 1/2 then ⌊q⌋
  else if (1:ℚ)/2 < q - ⌊q⌋ then ⌊q⌋ + 1
  else if ⌊q⌋ % 2 = 0 then ⌊q⌋ else ⌊q⌋ + 1

/-- Python `round(x, 2)` on the exact rational model. -/
def pyRound2 (q : ℚ) : ℚ := (roundHalfEven (q * 100) : ℚ) / 100

/-- The four summary tier strings and the other string constants of
`analyze_resume`. -/
def SUMMARY_EXCELLENT : Str :=
  "Excellent match – your resume is highly aligned with this job.".toList

/-- Tier string for `60 ≤ score < 80`. -/
def SUMMARY_GOOD : Str :=
  "Good match – with a few improvements, this resume will be strong.".toList

/-- Tier string for `40 ≤ score < 60`. -/
def SUMMARY_PARTIAL : Str :=
  "Partial match – you are missing several key skills from the job description.".toList

/-- Tier string for `score < 40`. -/
def SUMMARY_LOW : Str :=
  "Low match – consider tailoring your resume significantly to this role.".toList

/-- Summary of the degenerate-input report. -/
def SUMMARY_MISSING : Str :=
  "Missing resume or job description text.".toList

/-- The `model_name` field value. -/
def MODEL_NAME : Str :=
  "TF-IDF cosine similarity (lightweight)".toList

/-- Python's substring test `needle in haystack`: `needle` occurs as a
contiguous substring of `haystack`. -/
def hasSubstr (needle : Str) : Str → Bool
  | [] => needle.isEmpty
  | c :: t => needle.isPrefixOf (c :: t) || hasSubstr needle t

/-- The result dictionary of `analyze_resume`. -/
structure AnalysisReport where
  match_score : ℚ
  summary : Str
  skills_present : List Str
  skills_missing : List Str
  jd_keywords : List Str
  model_name : Str
deriving DecidableEq, Repr

/-- The summary tier selection of `analyze_resume` (`if match_score >= 80:
... elif ... else ...`), applied to the *unrounded* score. -/
def summaryFor (match_score : ℚ) : Str :=
  if 80 ≤ match_score then SUMMARY_EXCELLENT
  else if 60 ≤ match_score then SUMMARY_GOOD
  else if 40 ≤ match_score then SUMMARY_PARTIAL
  else SUMMARY_LOW

/-- The fixed report returned when either cleaned text is empty. -/
def missingTextReport : AnalysisReport :=
  { match_score := 0
    summary := SUMMARY_MISSING
    skills_present := []
    skills_missing := []
    jd_keywords := []
    model_name := MODEL_NAME }

/-- `analyze_resume` from `resume_analyzer.py`.  `sim` is the floating-point
cosine similarity of the external scorer (see `compute_semantic_match`);
an uncaught `ValueError` from the vectorizer is `Except.error ()`. -/
def analyze_resume (sim : ℚ) (resume_text jd_text : Str) : Except Unit AnalysisReport :=
  let resume := clean_text resume_text
  let jd := clean_text jd_text
  if resume = [] ∨ jd = [] then Except.ok missingTextReport
  else
    match compute_semantic_match sim resume jd with
    | Except.error e => Except.error e
    | Except.ok s =>
      let match_score := s * 100
      let jd_keywords := extract_keywords jd 30
      let resume_lower := resume.map Char.toLower
      let pm := jd_keywords.partition (fun kw => hasSubstr kw resume_lower)
      Except.ok
        { match_score := pyRound2 match_score
          summary := summaryFor match_score
          skills_present := pm.1
          skills_missing := pm.2.take 15
          jd_keywords := jd_keywords
          model_name := MODEL_NAME }

/-- The JSON object returned by the `/analyze-pdf` endpoint: the report fields
plus the excerpt. -/
structure PdfResponse where
  resume_text_excerpt : Str
  report : AnalysisReport
deriving DecidableEq, Repr

/-- `analyze_pdf` from `main.py`: per-page extracted texts (with
`page.extract_text() or ""` modelled by `Option.getD`), joined with a newline,
fed to `analyze_resume`; the response carries the first 500 characters of the
concatenated text as `resume_text_excerpt`. -/
def analyze_pdf (sim : ℚ) (pages : List (Option Str)) (job_description : Str) :
    Except Unit PdfResponse :=
  let text_chunks := pages.map (fun p => p.getD [])
  let resume_text := List.intercalate ['\n'] text_chunks
  match analyze_resume sim resume_text job_description with
  | Except.error e => Except.error e
  | Except.ok rep =>
    Except.ok { resume_text_excerpt := resume_text.take 500, report := rep }

instance {ε α : Type _} [DecidableEq ε] [DecidableEq α] : DecidableEq (Except ε α) := fun x y =>
  match x, y with
  | .error a, .error b =>
    match decEq a b with
    | isTrue h => isTrue (h ▸ rfl)
    | isFalse h => isFalse (fun hh => h (by injection hh))
  | .error _, .ok _ => isFalse (fun hh => Except.noConfusion hh)
  | .ok _, .error _ => isFalse (fun hh => Except.noConfusion hh)
  | .ok a, .ok b =>
    match decEq a b with
    | isTrue h => isTrue (h ▸ rfl)
    | isFalse h => isFalse (fun hh => h (by injection hh))

/-! ## Lemmas about `clean_text` -/

lemma mem_collapseAux {c : Char} :
    ∀ (b : Bool) (t : Str), c ∈ collapseAux b t →
      c = ' ' ∨ (c ∈ t ∧ pyIsSpace c = false) := by
  intro b t
  induction t generalizing b with
  | nil => intro h; simp [collapseAux] at h
  | cons d cs ih =>
    intro h
    simp only [collapseAux] at h
    by_cases hd : pyIsSpace d
    · rw [if_pos hd] at h
      cases b with
      | true =>
        simp only [if_true] at h
        rcases ih true h with h1 | ⟨h2, h3⟩
        · exact Or.inl h1
        · exact Or.inr ⟨List.mem_cons_of_mem _ h2, h3⟩
      | false =>
        simp only [Bool.false_eq_true, if_false, List.mem_cons] at h
        rcases h with h1 | h1
        · exact Or.inl h1
        · rcases ih true h1 with h2 | ⟨h2, h3⟩
          · exact Or.inl h2
          · exact Or.inr ⟨List.mem_cons_of_mem _ h2, h3⟩
    · rw [if_neg hd] at h
      rcases List.mem_cons.mp h with h1 | h1
      · subst h1; exact Or.inr ⟨List.mem_cons_self _ _, by simpa using hd⟩
      · rcases ih false h1 with h2 | ⟨h2, h3⟩
        · exact Or.inl h2
        · exact Or.inr ⟨List.mem_cons_of_mem _ h2, h3⟩

lemma collapseAux_true_head :
    ∀ (t : Str) (c : Char), (collapseAux true t).head? = some c → pyIsSpace c = false := by
  intro t
  induction t with
  | nil => intro c h; simp [collapseAux] at h
  | cons d cs ih =>
    intro c h
    simp only [collapseAux] at h
    by_cases hd : pyIsSpace d
    · rw [if_pos hd] at h
      simp only [if_true] at h
      exact ih c h
    · rw [if_neg hd] at h
      simp only [List.head?_cons, Option.some.injEq] at h
      subst h
      simpa using hd

lemma collapseAux_chain :
    ∀ (b : Bool) (t : Str),
      List.Chain' (fun a b => ¬(a = ' ' ∧ b = ' ')) (collapseAux b t) := by
  intro b t
  induction t generalizing b with
  | nil => simp [collapseAux]
  | cons d cs ih =>
    simp only [collapseAux]
    by_cases hd : pyIsSpace d
    · rw [if_pos hd]
      cases b with
      | true => simpa using ih true
      | false =>
        simp only [Bool.false_eq_true, if_false]
        rw [List.chain'_cons']
        refine ⟨?_, ih true⟩
        intro y hy hcon
        have hys : pyIsSpace y = false :=
          collapseAux_true_head cs y (Option.mem_def.mp hy)
        rcases hcon with ⟨_, hy'⟩
        subst hy'
        simp [pyIsSpace] at hys
    · rw [if_neg hd]
      rw [List.chain'_cons']
      refine ⟨?_, ih false⟩
      intro y _ hcon
      rcases hcon with ⟨hd', _⟩
      subst hd'
      simp [pyIsSpace] at hd

lemma mem_stripWs {c : Char} {t : Str} (h : c ∈ stripWs t) : c ∈ t := by
  unfold stripWs at h
  have h1 : c ∈ t.dropWhile pyIsSpace :=
    List.Sublist.mem h (List.IsPrefix.sublist ( List.rdropWhile_prefix _ _))
  exact (List.dropWhile_suffix _).sublist.mem h1

lemma mem_clean_text {c : Char} {t : Str} (h : c ∈ clean_text t) :
    c = ' ' ∨ pyIsSpace c = false := by
  unfold clean_text at h
  split at h
  · simp at h
  · have h1 : c ∈ collapseWs (replaceNewlines t) := mem_stripWs h
    rcases mem_collapseAux false _ h1 with h2 | ⟨_, h3⟩
    · exact Or.inl h2
    · exact Or.inr h3

lemma clean_text_chain (t : Str) :
    List.Chain' (fun a b => ¬(a = ' ' ∧ b = ' ')) (clean_text t) := by
  unfold clean_text
  split
  · simp
  · have h1 := collapseAux_chain false (replaceNewlines t)
    unfold stripWs
    have h2 : List.Chain' (fun a b => ¬(a = ' ' ∧ b = ' '))
        ((collapseWs (replaceNewlines t)).dropWhile pyIsSpace) :=
      h1.suffix (List.dropWhile_suffix pyIsSpace)
    exact List.Chain'.infix h2 ( List.IsPrefix.isInfix ( List.rdropWhile_prefix _ _))

lemma head_stripWs_not_space {t : Str} {c : Char}
    (h : (stripWs t).head? = some c) : pyIsSpace c = false := by
  unfold stripWs at h
  obtain ⟨r, hr⟩ := List.rdropWhile_prefix pyIsSpace (t.dropWhile pyIsSpace)
  have hh : (t.dropWhile pyIsSpace).head? = some c := by
    rw [← hr, List.head?_append]
    cases he : (List.rdropWhile pyIsSpace (t.dropWhile pyIsSpace)).head? with
    | none => rw [he] at h; exact absurd h (by simp)
    | some d =>
      rw [he] at h
      simp only [Option.some.injEq] at h
      subst h
      simp [he]
  have := List.head?_dropWhile_not pyIsSpace t
  rw [hh] at this
  exact this

lemma getLast_stripWs_not_space {t : Str} {c : Char}
    (h : (stripWs t).getLast? = some c) : pyIsSpace c = false := by
  unfold stripWs at h
  have hne : (t.dropWhile pyIsSpace).rdropWhile pyIsSpace ≠ [] := by
    intro hnil; rw [hnil] at h; simp at h
  have hlast := List.getLast?_eq_getLast _ hne
  rw [h] at hlast
  have hnp := List.rdropWhile_last_not pyIsSpace (t.dropWhile pyIsSpace) hne
  rw [← Option.some.injEq _ _ |>.mp hlast] at hnp
  simpa using hnp

lemma clean_text_head_not_space {t : Str} {c : Char}
    (h : (clean_text t).head? = some c) : pyIsSpace c = false := by
  unfold clean_text at h
  split at h
  · simp at h
  · exact head_stripWs_not_space h

lemma clean_text_getLast_not_space {t : Str} {c : Char}
    (h : (clean_text t).getLast? = some c) : pyIsSpace c = false := by
  unfold clean_text at h
  split at h
  · simp at h
  · exact getLast_stripWs_not_space h

lemma map_eq_self_of_mem {f : Char → Char} :
    ∀ {l : Str}, (∀ c ∈ l, f c = c) → l.map f = l := by
  intro l
  induction l with
  | nil => intro _; rfl
  | cons d cs ih =>
    intro h
    simp only [List.map_cons]
    rw [h d (List.mem_cons_self _ _), ih (fun c hc => h c (List.mem_cons_of_mem _ hc))]

lemma collapseAux_eq_self :
    ∀ (v : Str), (∀ c ∈ v, pyIsSpace c = true → c = ' ') →
      List.Chain' (fun a b => ¬(a = ' ' ∧ b = ' ')) v →
      (collapseAux false v = v ∧
        ((∀ c, v.head? = some c → c ≠ ' ') → collapseAux true v = v)) := by
  intro v
  induction v with
  | nil => exact fun _ _ => ⟨rfl, fun _ => rfl⟩
  | cons d cs ih =>
    intro hsp hch
    have hch' : List.Chain' (fun a b => ¬(a = ' ' ∧ b = ' ')) cs :=
      (List.chain'_cons'.mp hch).2
    have hhd := (List.chain'_cons'.mp hch).1
    have hsp' : ∀ c ∈ cs, pyIsSpace c = true → c = ' ' :=
      fun c hc => hsp c (List.mem_cons_of_mem _ hc)
    by_cases hd : pyIsSpace d
    · have hd' : d = ' ' := hsp d (List.mem_cons_self _ _) hd
      subst hd'
      constructor
      · show collapseAux false (' ' :: cs) = ' ' :: cs
        simp only [collapseAux, if_pos hd, Bool.false_eq_true, if_false]
        have : collapseAux true cs = cs := by
          refine (ih hsp' hch').2 ?_
          intro c hc hc'
          subst hc'
          exact hhd ' ' (Option.mem_def.mpr hc) ⟨rfl, rfl⟩
        rw [this]
      · intro hhead
        exact absurd rfl (hhead ' ' rfl)
    · have htail : collapseAux false cs = cs := (ih hsp' hch').1
      constructor
      · simp only [collapseAux, if_neg hd, htail]
      · intro _
        simp only [collapseAux, if_neg hd, htail]

lemma dropWhile_eq_self_of_head {v : Str}
    (h : ∀ c, v.head? = some c → pyIsSpace c = false) :
    v.dropWhile pyIsSpace = v := by
  cases v with
  | nil => rfl
  | cons d cs =>
    rw [List.dropWhile_cons, if_neg]
    rw [h d rfl]
    simp

lemma stripWs_eq_self {v : Str}
    (hh : ∀ c, v.head? = some c → pyIsSpace c = false)
    (hl : ∀ c, v.getLast? = some c → pyIsSpace c = false) :
    stripWs v = v := by
  unfold stripWs
  rw [dropWhile_eq_self_of_head hh]
  rw [List.rdropWhile_eq_self_iff]
  intro hne
  have := hl _ (List.getLast?_eq_getLast v hne)
  simp [this]

/-- C8: for every input, `clean_text` output has no newline character, no two
consecutive spaces, and neither a leading nor a trailing whitespace
character; the empty input yields the empty output (the Python `None` input
takes the same falsy branch as `""` and is represented by the empty
string). -/
theorem clean_text_spec (t : Str) :
    '\n' ∉ clean_text t ∧
    List.Chain' (fun a b => ¬(a = ' ' ∧ b = ' ')) (clean_text t) ∧
    (∀ c, (clean_text t).head? = some c → pyIsSpace c = false) ∧
    (∀ c, (clean_text t).getLast? = some c → pyIsSpace c = false) ∧
    clean_text ([] : Str) = [] := by
  refine ⟨?_, clean_text_chain t, fun c h => clean_text_head_not_space h,
    fun c h => clean_text_getLast_not_space h, rfl⟩
  intro hmem
  rcases mem_clean_text hmem with h | h
  · exact absurd h (by decide)
  · exact absurd h (by decide)

/-- C8 witness: the properties at a concrete input. -/
theorem clean_text_spec_witness :
    '\n' ∉ clean_text ("  a\n\nb  ".toList) ∧
    List.Chain' (fun a b => ¬(a = ' ' ∧ b = ' ')) (clean_text ("  a\n\nb  ".toList)) ∧
    (∀ c, (clean_text ("  a\n\nb  ".toList)).head? = some c → pyIsSpace c = false) ∧
    (∀ c, (clean_text ("  a\n\nb  ".toList)).getLast? = some c → pyIsSpace c = false) ∧
    clean_text ([] : Str) = [] :=
  clean_text_spec ("  a\n\nb  ".toList)

/-- C10: `clean_text` is idempotent. -/
theorem clean_text_idempotent (t : Str) :
    clean_text (clean_text t) = clean_text t := by
  by_cases hnil : clean_text t = []
  · rw [hnil]
    rfl
  · have hsp : ∀ c ∈ clean_text t, pyIsSpace c = true → c = ' ' := by
      intro c hc hcs
      rcases mem_clean_text hc with h | h
      · exact h
      · rw [hcs] at h
        exact absurd h (by simp)
    have hch := clean_text_chain t
    have hrepl : replaceNewlines (clean_text t) = clean_text t := by
      refine map_eq_self_of_mem ?_
      intro c hc
      have : c ≠ '\n' := by
        intro hceq
        subst hceq
        rcases mem_clean_text hc with h | h
        · exact absurd h (by decide)
        · exact absurd h (by decide)
      simp [this]
    have hcoll : collapseWs (clean_text t) = clean_text t :=
      (collapseAux_eq_self (clean_text t) hsp hch).1
    have hstrip : stripWs (clean_text t) = clean_text t :=
      stripWs_eq_self (fun c h => clean_text_head_not_space h)
        (fun c h => clean_text_getLast_not_space h)
    show (if clean_text t = [] then []
      else stripWs (collapseWs (replaceNewlines (clean_text t)))) = clean_text t
    rw [if_neg hnil, hrepl, hcoll, hstrip]

/-! ## Lemmas about `tokenize` -/

lemma char_toNat_ofNat {n : Nat} (h : n < 55296) : (Char.ofNat n).toNat = n := by
  have hv : n.isValidChar := Or.inl h
  simp only [Char.ofNat, hv, dif_pos]
  rfl

lemma toLower_toLower (c : Char) : Char.toLower (Char.toLower c) = Char.toLower c := by
  unfold Char.toLower
  by_cases h : c.toNat ≥ 65 ∧ c.toNat ≤ 90
  · rw [if_pos h]
    have h32 : (Char.ofNat (c.toNat + 32)).toNat = c.toNat + 32 :=
      char_toNat_ofNat (by omega)
    rw [if_neg]
    rw [h32]
    omega
  · rw [if_neg h, if_neg h]

lemma mem_splitRunsAux {keep : Char → Bool} :
    ∀ (rest : Str) (cur : Str) (tok : Str), tok ∈ splitRunsAux keep cur rest →
      ∀ c ∈ tok, c ∈ cur ∨ (c ∈ rest ∧ keep c = true) := by
  intro rest
  induction rest with
  | nil =>
    intro cur tok h c hc
    simp only [splitRunsAux] at h
    split at h
    · simp at h
    · rcases List.mem_singleton.mp h with h1
      subst h1
      exact Or.inl (List.mem_reverse.mp hc)
  | cons d ds ih =>
    intro cur tok h c hc
    simp only [splitRunsAux] at h
    by_cases hk : keep d
    · rw [if_pos hk] at h
      rcases ih (d :: cur) tok h c hc with h1 | ⟨h2, h3⟩
      · rcases List.mem_cons.mp h1 with h4 | h4
        · subst h4
          exact Or.inr ⟨List.mem_cons_self _ _, hk⟩
        · exact Or.inl h4
      · exact Or.inr ⟨List.mem_cons_of_mem _ h2, h3⟩
    · rw [if_neg hk] at h
      by_cases hc0 : cur = []
      · rw [if_pos hc0] at h
        rcases ih [] tok h c hc with h1 | ⟨h2, h3⟩
        · simp at h1
        · exact Or.inr ⟨List.mem_cons_of_mem _ h2, h3⟩
      · rw [if_neg hc0] at h
        rcases List.mem_cons.mp h with h1 | h1
        · subst h1
          exact Or.inl (List.mem_reverse.mp hc)
        · rcases ih [] tok h1 c hc with h2 | ⟨h2, h3⟩
          · simp at h2
          · exact Or.inr ⟨List.mem_cons_of_mem _ h2, h3⟩

lemma tokenize_chars {text : Str} {tok : Str} (h : tok ∈ tokenize text) :
    ∀ c ∈ tok, Char.toLower c = c ∧ isPunct c = false ∧ pyIsSpace c = false := by
  intro c hc
  simp only [tokenize] at h
  have hsplit : tok ∈ splitWs ((text.map Char.toLower).filter (fun c => !(isPunct c))) :=
    List.mem_of_mem_filter h
  rcases mem_splitRunsAux _ [] tok hsplit c hc with h1 | ⟨h2, h3⟩
  · simp at h1
  · have hstripped := List.mem_filter.mp h2
    have hpunct : isPunct c = false := by
      have := hstripped.2
      simpa using this
    have hlower : Char.toLower c = c := by
      rcases List.mem_map.mp hstripped.1 with ⟨c0, _, hc0⟩
      rw [← hc0]
      exact toLower_toLower c0
    refine ⟨hlower, hpunct, ?_⟩
    simpa using h3

/-- C7: every token produced by `tokenize` is a non-stopword of length > 2;
its characters are lowercase (fixed by ASCII lowercasing) with all
punctuation characters removed; and the token sequence is a sublist — order
preserved, duplicates retained — of the whitespace-split of the lowercased,
punctuation-stripped input. -/
theorem tokenize_spec (text : Str) :
    (∀ tok ∈ tokenize text,
      tok ∉ STOPWORDS ∧ 2 < tok.length ∧
      ∀ c ∈ tok, Char.toLower c = c ∧ isPunct c = false) ∧
    (tokenize text).Sublist
      (splitWs ((text.map Char.toLower).filter (fun c => !(isPunct c)))) := by
  constructor
  · intro tok htok
    have hchars := tokenize_chars htok
    simp only [tokenize] at htok
    have hpred := List.of_mem_filter htok
    rw [Bool.and_eq_true] at hpred
    refine ⟨?_, ?_, fun c hc => ⟨(hchars c hc).1, (hchars c hc).2.1⟩⟩
    · intro hmem
      have : STOPWORDS.contains tok = true := List.elem_eq_true_of_mem hmem
      rw [this] at hpred
      simpa using hpred.1
    · exact of_decide_eq_true hpred.2
  · simp only [tokenize]
    exact List.filter_sublist _

/-- C7 witness: the tokenizer properties at a concrete input. -/
theorem tokenize_spec_witness :
    (∀ tok ∈ tokenize ("The Quick, brown-fox jumps IT a".toList),
      tok ∉ STOPWORDS ∧ 2 < tok.length ∧
      ∀ c ∈ tok, Char.toLower c = c ∧ isPunct c = false) ∧
    (tokenize ("The Quick, brown-fox jumps IT a".toList)).Sublist
      (splitWs ((("The Quick, brown-fox jumps IT a".toList).map Char.toLower).filter
        (fun c => !(isPunct c)))) :=
  tokenize_spec ("The Quick, brown-fox jumps IT a".toList)

/-! ## Lemmas about `extract_keywords` -/

lemma indexOf_cons_self_str (a : Str) (l : List Str) : (a :: l).indexOf a = 0 := by
  simp [List.indexOf, List.findIdx_cons]

lemma indexOf_cons_ne_str {a x : Str} (l : List Str) (h : a ≠ x) :
    (x :: l).indexOf a = l.indexOf a + 1 := by
  have hbeq : (x == a) = false := beq_eq_false_iff_ne.mpr (Ne.symm h)
  simp [List.indexOf, List.findIdx_cons, hbeq]

lemma mem_dedupFirstAux :
    ∀ (l seen : List Str) (a : Str),
      a ∈ dedupFirstAux seen l ↔ (a ∈ l ∧ a ∉ seen) := by
  intro l
  induction l with
  | nil => intro seen a; simp [dedupFirstAux]
  | cons x xs ih =>
    intro seen a
    simp only [dedupFirstAux]
    by_cases hx : seen.contains x
    · rw [if_pos hx, ih]
      constructor
      · rintro ⟨h1, h2⟩
        exact ⟨List.mem_cons_of_mem _ h1, h2⟩
      · rintro ⟨h1, h2⟩
        rcases List.mem_cons.mp h1 with h3 | h3
        · subst h3
          exact absurd (List.mem_of_elem_eq_true hx) h2
        · exact ⟨h3, h2⟩
    · rw [if_neg hx]
      rw [List.mem_cons, ih]
      constructor
      · rintro (h1 | ⟨h1, h2⟩)
        · subst h1
          refine ⟨List.mem_cons_self _ _, ?_⟩
          intro hmem
          exact hx (List.elem_eq_true_of_mem hmem)
        · refine ⟨List.mem_cons_of_mem _ h1, ?_⟩
          intro hmem
          exact h2 (List.mem_cons_of_mem _ hmem)
      · rintro ⟨h1, h2⟩
        by_cases hax : a = x
        · exact Or.inl hax
        · rcases List.mem_cons.mp h1 with h3 | h3
          · exact absurd h3 hax
          · refine Or.inr ⟨h3, ?_⟩
            intro hmem
            rcases List.mem_cons.mp hmem with h4 | h4
            · exact hax h4
            · exact h2 h4

lemma nodup_dedupFirstAux :
    ∀ (l seen : List Str), (dedupFirstAux seen l).Nodup := by
  intro l
  induction l with
  | nil => intro seen; simp [dedupFirstAux]
  | cons x xs ih =>
    intro seen
    simp only [dedupFirstAux]
    by_cases hx : seen.contains x
    · rw [if_pos hx]; exact ih seen
    · rw [if_neg hx]
      refine List.Pairwise.cons ?_ (ih (x :: seen))
      intro b hb hbx
      have hmem := (mem_dedupFirstAux xs (x :: seen) b).mp hb
      refine hmem.2 ?_
      rw [← hbx]
      exact List.mem_cons_self x seen

lemma pairwise_indexOf_dedupFirstAux :
    ∀ (l seen : List Str),
      (dedupFirstAux seen l).Pairwise (fun a b => l.indexOf a < l.indexOf b) := by
  intro l
  induction l with
  | nil => intro seen; simp [dedupFirstAux]
  | cons x xs ih =>
    intro seen
    simp only [dedupFirstAux]
    by_cases hx : seen.contains x
    · rw [if_pos hx]
      refine (ih seen).imp_of_mem ?_
      intro a b ha hb hab
      have ha' := (mem_dedupFirstAux xs seen a).mp ha
      have hb' := (mem_dedupFirstAux xs seen b).mp hb
      have hax : a ≠ x := by
        intro h; subst h
        exact ha'.2 (List.mem_of_elem_eq_true hx)
      have hbx : b ≠ x := by
        intro h; subst h
        exact hb'.2 (List.mem_of_elem_eq_true hx)
      rw [indexOf_cons_ne_str xs hax, indexOf_cons_ne_str xs hbx]
      omega
    · rw [if_neg hx]
      refine List.Pairwise.cons ?_ ?_
      · intro b hb
        have hb' := (mem_dedupFirstAux xs (x :: seen) b).mp hb
        have hbx : b ≠ x := fun h =>
          hb'.2 (by rw [h]; exact List.mem_cons_self x seen)
        rw [indexOf_cons_self_str, indexOf_cons_ne_str xs hbx]
        omega
      · refine (ih (x :: seen)).imp_of_mem ?_
        intro a b ha hb hab
        have ha' := (mem_dedupFirstAux xs (x :: seen) a).mp ha
        have hb' := (mem_dedupFirstAux xs (x :: seen) b).mp hb
        have hax : a ≠ x := fun h =>
          ha'.2 (by rw [h]; exact List.mem_cons_self x seen)
        have hbx : b ≠ x := fun h =>
          hb'.2 (by rw [h]; exact List.mem_cons_self x seen)
        rw [indexOf_cons_ne_str xs hax, indexOf_cons_ne_str xs hbx]
        omega

lemma mem_insertByKeyDesc {key : Str → Nat} {x : Str} :
    ∀ (l : List Str) (a : Str), a ∈ insertByKeyDesc key x l ↔ a = x ∨ a ∈ l := by
  intro l
  induction l with
  | nil => intro a; simp [insertByKeyDesc]
  | cons y ys ih =>
    intro a
    simp only [insertByKeyDesc]
    by_cases hk : key x ≤ key y
    · rw [if_pos hk]
      rw [List.mem_cons, ih, List.mem_cons]
      tauto
    · rw [if_neg hk]
      simp only [List.mem_cons]

lemma insertByKeyDesc_perm (key : Str → Nat) (x : Str) :
    ∀ (l : List Str), List.Perm (insertByKeyDesc key x l) (x :: l) := by
  intro l
  induction l with
  | nil => simp [insertByKeyDesc]
  | cons y ys ih =>
    simp only [insertByKeyDesc]
    by_cases hk : key x ≤ key y
    · rw [if_pos hk]
      exact (ih.cons y).trans (List.Perm.swap x y ys)
    · rw [if_neg hk]

lemma foldl_insertByKeyDesc_perm (key : Str → Nat) :
    ∀ (l acc : List Str),
      List.Perm (l.foldl (fun a x => insertByKeyDesc key x a) acc) (l ++ acc) := by
  intro l
  induction l with
  | nil => intro acc; simp
  | cons x xs ih =>
    intro acc
    have h1 := ih (insertByKeyDesc key x acc)
    have h2 : List.Perm (xs ++ insertByKeyDesc key x acc) (xs ++ x :: acc) :=
      (insertByKeyDesc_perm key x acc).append_left xs
    have h3 : List.Perm (xs ++ x :: acc) (x :: (xs ++ acc)) := List.perm_middle
    simpa using (h1.trans h2).trans h3

lemma sortByKeyDesc_perm (key : Str → Nat) (l : List Str) :
    List.Perm (sortByKeyDesc key l) l := by
  have := foldl_insertByKeyDesc_perm key l []
  simpa [sortByKeyDesc] using this

lemma insertByKeyDesc_pairwise {key : Str → Nat} {S : Str → Str → Prop} {x : Str} :
    ∀ {l : List Str},
      l.Pairwise (fun a b => key b < key a ∨ (key a = key b ∧ S a b)) →
      (∀ y ∈ l, S y x) →
      (insertByKeyDesc key x l).Pairwise
        (fun a b => key b < key a ∨ (key a = key b ∧ S a b)) := by
  intro l
  induction l with
  | nil => intro _ _; simp [insertByKeyDesc]
  | cons y ys ih =>
    intro hl hx
    have hy := (List.pairwise_cons.mp hl).1
    have hys := (List.pairwise_cons.mp hl).2
    simp only [insertByKeyDesc]
    by_cases hk : key x ≤ key y
    · rw [if_pos hk]
      refine List.pairwise_cons.mpr
        ⟨?_, ih hys (fun z hz => hx z (List.mem_cons_of_mem _ hz))⟩
      intro z hz
      rcases (mem_insertByKeyDesc ys z).mp hz with h1 | h1
      · subst h1
        rcases lt_or_eq_of_le hk with h2 | h2
        · exact Or.inl h2
        · exact Or.inr ⟨h2.symm, hx y (List.mem_cons_self _ _)⟩
      · exact hy z h1
    · rw [if_neg hk]
      push_neg at hk
      refine List.pairwise_cons.mpr ⟨?_, hl⟩
      intro z hz
      rcases List.mem_cons.mp hz with h1 | h1
      · subst h1
        exact Or.inl hk
      · have hyz := hy z h1
        have hzy : key z ≤ key y := by
          rcases hyz with h2 | ⟨h2, _⟩
          · omega
          · omega
        exact Or.inl (by omega)

lemma foldl_insertByKeyDesc_pairwise {key : Str → Nat} {S : Str → Str → Prop} :
    ∀ (l acc : List Str),
      acc.Pairwise (fun a b => key b < key a ∨ (key a = key b ∧ S a b)) →
      (∀ y ∈ acc, ∀ x ∈ l, S y x) →
      l.Pairwise S →
      (l.foldl (fun a x => insertByKeyDesc key x a) acc).Pairwise
        (fun a b => key b < key a ∨ (key a = key b ∧ S a b)) := by
  intro l
  induction l with
  | nil => intro acc hacc _ _; simpa using hacc
  | cons x xs ih =>
    intro acc hacc hcross hl
    have hxl := (List.pairwise_cons.mp hl).1
    have hxs := (List.pairwise_cons.mp hl).2
    refine ih (insertByKeyDesc key x acc) ?_ ?_ hxs
    · exact insertByKeyDesc_pairwise hacc
        (fun y hy => hcross y hy x (List.mem_cons_self _ _))
    · intro y hy z hz
      rcases (mem_insertByKeyDesc acc y).mp hy with h1 | h1
      · subst h1
        exact hxl z hz
      · exact hcross y h1 z (List.mem_cons_of_mem _ hz)

lemma sortByKeyDesc_pairwise {key : Str → Nat} {S : Str → Str → Prop}
    {l : List Str} (hl : l.Pairwise S) :
    (sortByKeyDesc key l).Pairwise
      (fun a b => key b < key a ∨ (key a = key b ∧ S a b)) := by
  unfold sortByKeyDesc
  exact foldl_insertByKeyDesc_pairwise l [] List.Pairwise.nil (by simp) hl

/-! ## Lemmas about rounding and the orchestrator -/

lemma roundHalfEven_le (q : ℚ) : (roundHalfEven q : ℚ) ≤ q + 1/2 := by
  unfold roundHalfEven
  have h1 := Int.floor_le q
  split
  · linarith
  · split
    · push_cast
      linarith
    · split
      · linarith
      · push_cast
        linarith

lemma le_roundHalfEven (q : ℚ) : q - 1/2 ≤ (roundHalfEven q : ℚ) := by
  unfold roundHalfEven
  have h2 := Int.lt_floor_add_one q
  split
  · linarith
  · split
    · push_cast
      linarith
    · split
      · linarith
      · push_cast
        linarith

lemma roundHalfEven_interval {q : ℚ} {n : ℤ} (h : roundHalfEven q = n) :
    (n : ℚ) - 1/2 ≤ q ∧ q ≤ (n : ℚ) + 1/2 := by
  have a := roundHalfEven_le q
  have b := le_roundHalfEven q
  rw [h] at a b
  constructor <;> linarith

lemma pyRound2_nonneg {q : ℚ} (h0 : 0 ≤ q) : 0 ≤ pyRound2 q := by
  unfold pyRound2
  have hb := le_roundHalfEven (q * 100)
  have hq : (0 : ℚ) ≤ q * 100 := by linarith
  have h1 : (-1 : ℚ) < (roundHalfEven (q * 100) : ℚ) := by linarith
  have h2 : (-1 : ℤ) < roundHalfEven (q * 100) := by exact_mod_cast h1
  have h3 : (0 : ℤ) ≤ roundHalfEven (q * 100) := by omega
  have h4 : (0 : ℚ) ≤ (roundHalfEven (q * 100) : ℚ) := by exact_mod_cast h3
  positivity

lemma pyRound2_le_of_le {q : ℚ} (h1 : q ≤ 100) : pyRound2 q ≤ 100 := by
  unfold pyRound2
  have hb := roundHalfEven_le (q * 100)
  have hq : q * 100 ≤ 10000 := by linarith
  have h2 : (roundHalfEven (q * 100) : ℚ) < 10001 := by linarith
  have h3 : roundHalfEven (q * 100) < (10001 : ℤ) := by exact_mod_cast h2
  have h4 : roundHalfEven (q * 100) ≤ (10000 : ℤ) := by omega
  have h5 : (roundHalfEven (q * 100) : ℚ) ≤ 10000 := by exact_mod_cast h4
  linarith

lemma analyze_resume_missing (sim : ℚ) (r j : Str)
    (h : clean_text r = [] ∨ clean_text j = []) :
    analyze_resume sim r j = Except.ok missingTextReport := by
  simp only [analyze_resume]
  rw [if_pos h]

lemma analyze_resume_error (sim : ℚ) (r j : Str)
    (hr : clean_text r ≠ []) (hj : clean_text j ≠ [])
    (hv : tfidf_vocabulary (clean_text r) (clean_text j) = []) :
    analyze_resume sim r j = Except.error () := by
  simp only [analyze_resume, compute_semantic_match]
  rw [if_neg (by simp [hr, hj]), if_pos hv]

lemma analyze_resume_ok_eq (sim : ℚ) (r j : Str)
    (hr : clean_text r ≠ []) (hj : clean_text j ≠ [])
    (hv : tfidf_vocabulary (clean_text r) (clean_text j) ≠ []) :
    analyze_resume sim r j = Except.ok
      { match_score := pyRound2 (sim * 100)
        summary := summaryFor (sim * 100)
        skills_present := (extract_keywords (clean_text j) 30).filter
          (fun kw => hasSubstr kw ((clean_text r).map Char.toLower))
        skills_missing := ((extract_keywords (clean_text j) 30).filter
          (fun kw => !(hasSubstr kw ((clean_text r).map Char.toLower)))).take 15
        jd_keywords := extract_keywords (clean_text j) 30
        model_name := MODEL_NAME } := by
  simp only [analyze_resume, compute_semantic_match]
  rw [if_neg (by simp [hr, hj]), if_neg hv]
  simp [List.partition_eq_filter_filter, Function.comp_def]

lemma hasSubstr_iff {nd hs : Str} : hasSubstr nd hs = true ↔ nd <:+: hs := by
  induction hs with
  | nil =>
    simp only [hasSubstr, List.isEmpty_iff]
    constructor
    · intro h; rw [h]
    · intro h
      have := List.eq_nil_of_infix_nil h
      exact this
  | cons c t ih =>
    simp only [hasSubstr, Bool.or_eq_true, ih]
    rw [ List.infix_cons_iff]
    constructor
    · rintro (h | h)
      · exact Or.inl ( List.isPrefixOf_iff_prefix.mp h)
      · exact Or.inr h
    · rintro (h | h)
      · exact Or.inl ( List.isPrefixOf_iff_prefix.mpr h)
      · exact Or.inr h

lemma analyze_resume_isOk_iff (sim : ℚ) (r j : Str) :
    (∃ rep, analyze_resume sim r j = Except.ok rep) ↔
      (clean_text r = [] ∨ clean_text j = [] ∨
        tfidf_vocabulary (clean_text r) (clean_text j) ≠ []) := by
  constructor
  · rintro ⟨rep, hrep⟩
    by_cases hr : clean_text r = []
    · exact Or.inl hr
    by_cases hj : clean_text j = []
    · exact Or.inr (Or.inl hj)
    by_cases hv : tfidf_vocabulary (clean_text r) (clean_text j) = []
    · rw [analyze_resume_error sim r j hr hj hv] at hrep
      exact absurd hrep (by simp)
    · exact Or.inr (Or.inr hv)
  · intro h
    by_cases hr : clean_text r = []
    · exact ⟨_, analyze_resume_missing sim r j (Or.inl hr)⟩
    by_cases hj : clean_text j = []
    · exact ⟨_, analyze_resume_missing sim r j (Or.inr hj)⟩
    have hv : tfidf_vocabulary (clean_text r) (clean_text j) ≠ [] := by tauto
    exact ⟨_, analyze_resume_ok_eq sim r j hr hj hv⟩

/-! ## The claims -/

/-- C6: `extract_keywords` returns at most `top_k` tokens, all distinct, each
a token of the input; the order is non-increasing occurrence count with ties
broken by first-occurrence position in the token list; empty tokenization
gives the empty list; the Lean default argument is 25 like the Python
default; and the orchestrator fills `jd_keywords` using `top_k = 30` on the
cleaned job description. -/
theorem extract_keywords_spec :
    (∀ (text : Str) (k : Nat),
      (extract_keywords text k).length ≤ k ∧
      (extract_keywords text k).Nodup ∧
      (∀ w ∈ extract_keywords text k, w ∈ tokenize text) ∧
      (extract_keywords text k).Pairwise (fun a b =>
        (tokenize text).count b < (tokenize text).count a ∨
        ((tokenize text).count a = (tokenize text).count b ∧
          (tokenize text).indexOf a < (tokenize text).indexOf b)) ∧
      (tokenize text = [] → extract_keywords text k = []) ∧
      extract_keywords text = extract_keywords text 25) ∧
    (∀ (sim : ℚ) (r j : Str) (rep : AnalysisReport),
      analyze_resume sim r j = Except.ok rep → clean_text r ≠ [] →
      rep.jd_keywords = extract_keywords (clean_text j) 30) := by
  constructor
  · intro text k
    by_cases ht : tokenize text = []
    · have he : extract_keywords text k = [] := by
        simp [extract_keywords, ht]
      rw [he]
      exact ⟨by simp, by simp, by simp, by simp, fun _ => rfl, rfl⟩
    · have he : extract_keywords text k =
          (sortByKeyDesc (fun w => (tokenize text).count w)
            (dedupFirst (tokenize text))).take k := by
        simp [extract_keywords, ht]
      have hperm := sortByKeyDesc_perm (fun w => (tokenize text).count w)
        (dedupFirst (tokenize text))
      refine ⟨?_, ?_, ?_, ?_, fun h => absurd h ht, rfl⟩
      · rw [he]
        exact List.length_take_le k _
      · rw [he]
        have hnd : (dedupFirst (tokenize text)).Nodup := nodup_dedupFirstAux _ []
        have hnd' := hperm.nodup_iff.mpr hnd
        exact List.Nodup.sublist (List.take_sublist _ _) hnd'
      · intro w hw
        rw [he] at hw
        have h1 := (List.take_sublist k _).mem hw
        have h2 := hperm.mem_iff.mp h1
        exact ((mem_dedupFirstAux _ [] w).mp h2).1
      · rw [he]
        have hpw : (sortByKeyDesc (fun w => (tokenize text).count w)
            (dedupFirst (tokenize text))).Pairwise (fun a b =>
              (tokenize text).count b < (tokenize text).count a ∨
              ((tokenize text).count a = (tokenize text).count b ∧
                (tokenize text).indexOf a < (tokenize text).indexOf b)) :=
          sortByKeyDesc_pairwise (pairwise_indexOf_dedupFirstAux (tokenize text) [])
        exact List.Pairwise.sublist (List.take_sublist _ _) hpw
  · intro sim r j rep hok hr
    by_cases hj : clean_text j = []
    · rw [analyze_resume_missing sim r j (Or.inr hj)] at hok
      injection hok with h
      rw [← h, hj]
      decide
    · by_cases hv : tfidf_vocabulary (clean_text r) (clean_text j) = []
      · rw [analyze_resume_error sim r j hr hj hv] at hok
        exact absurd hok (by simp)
      · rw [analyze_resume_ok_eq sim r j hr hj hv] at hok
        injection hok with h
        rw [← h]

/-- C6 witness: the keyword-extractor properties at a concrete input and
`k = 2`. -/
theorem extract_keywords_spec_witness :
    (extract_keywords ("data data science team".toList) 2).length ≤ 2 ∧
    (extract_keywords ("data data science team".toList) 2).Nodup ∧
    (∀ w ∈ extract_keywords ("data data science team".toList) 2,
      w ∈ tokenize ("data data science team".toList)) ∧
    (extract_keywords ("data data science team".toList) 2).Pairwise (fun a b =>
      (tokenize ("data data science team".toList)).count b <
        (tokenize ("data data science team".toList)).count a ∨
      ((tokenize ("data data science team".toList)).count a =
        (tokenize ("data data science team".toList)).count b ∧
        (tokenize ("data data science team".toList)).indexOf a <
          (tokenize ("data data science team".toList)).indexOf b)) ∧
    (tokenize ("data data science team".toList) = [] →
      extract_keywords ("data data science team".toList) 2 = []) ∧
    extract_keywords ("data data science team".toList) =
      extract_keywords ("data data science team".toList) 25 :=
  extract_keywords_spec.1 ("data data science team".toList) 2

/-- C4: whenever either cleaned input is empty, `analyze_resume` returns the
fixed missing-text report (score 0, empty lists, literal summary).  The
equation holds for every scorer value `sim` and regardless of the TF-IDF
vocabulary — in particular also when the vocabulary is empty and a scorer
invocation would have raised — which is the shallow-embedding image of "the
scorer is not invoked". -/
theorem empty_input_short_circuit (sim : ℚ) (r j : Str)
    (h : clean_text r = [] ∨ clean_text j = []) :
    analyze_resume sim r j = Except.ok
      { match_score := 0
        summary := SUMMARY_MISSING
        skills_present := []
        skills_missing := []
        jd_keywords := []
        model_name := MODEL_NAME } :=
  analyze_resume_missing sim r j h

/-- C4 witness: the empty resume together with a non-empty job description
produces exactly the missing-text report. -/
theorem empty_input_short_circuit_witness :
    (clean_text ("".toList) = [] ∨ clean_text ("data scientist".toList) = []) ∧
    analyze_resume 0 ("".toList) ("data scientist".toList) = Except.ok
      { match_score := 0
        summary := SUMMARY_MISSING
        skills_present := []
        skills_missing := []
        jd_keywords := []
        model_name := MODEL_NAME } :=
  ⟨Or.inl (by decide),
    empty_input_short_circuit 0 ("".toList) ("data scientist".toList) (Or.inl (by decide))⟩

/-- C2: under the scorer contract `0 ≤ sim ≤ 1`, for non-empty cleaned inputs
on which the analysis succeeds, the returned `match_score` lies in `[0, 100]`
and equals the similarity times 100 rounded (half-to-even) to 2 decimal
places. -/
theorem match_score_bounds_and_rounding (sim : ℚ) (r j : Str)
    (hsim0 : 0 ≤ sim) (hsim1 : sim ≤ 1)
    (hr : clean_text r ≠ []) (hj : clean_text j ≠ [])
    (hv : tfidf_vocabulary (clean_text r) (clean_text j) ≠ []) :
    ∃ rep : AnalysisReport, analyze_resume sim r j = Except.ok rep ∧
      0 ≤ rep.match_score ∧ rep.match_score ≤ 100 ∧
      rep.match_score = pyRound2 (sim * 100) ∧
      ∃ n : ℤ, rep.match_score = (n : ℚ) / 100 := by
  refine ⟨_, analyze_resume_ok_eq sim r j hr hj hv, ?_, ?_, rfl,
    roundHalfEven (sim * 100 * 100), rfl⟩
  · exact pyRound2_nonneg (by positivity)
  · exact pyRound2_le_of_le (by linarith)

/-- C2 witness: the bounds at a concrete successful analysis with `sim = 0`. -/
theorem match_score_bounds_and_rounding_witness :
    ((0:ℚ) ≤ 0 ∧ (0:ℚ) ≤ 1 ∧ clean_text ("python dev".toList) ≠ [] ∧
      clean_text ("python".toList) ≠ [] ∧
      tfidf_vocabulary (clean_text ("python dev".toList))
        (clean_text ("python".toList)) ≠ []) ∧
    ∃ rep : AnalysisReport,
      analyze_resume 0 ("python dev".toList) ("python".toList) = Except.ok rep ∧
      0 ≤ rep.match_score ∧ rep.match_score ≤ 100 ∧
      rep.match_score = pyRound2 (0 * 100) ∧
      ∃ n : ℤ, rep.match_score = (n : ℚ) / 100 :=
  ⟨⟨le_refl 0, by decide, by decide, by decide, by decide⟩,
    match_score_bounds_and_rounding 0 ("python dev".toList) ("python".toList)
      (le_refl 0) (by decide) (by decide) (by decide) (by decide)⟩

lemma roundHalfEven_eq_add_one_of {q : ℚ} {n : ℤ}
    (h1 : ⌊q⌋ = n) (h2 : 1/2 < q - (n : ℚ)) : roundHalfEven q = n + 1 := by
  unfold roundHalfEven
  rw [h1, if_neg (by linarith), if_pos h2]

lemma pyRound2_eq_of_floor {q : ℚ} {n : ℤ}
    (h1 : ⌊q * 100⌋ = n) (h2 : 1/2 < q * 100 - (n : ℚ)) :
    pyRound2 q = ((n : ℚ) + 1) / 100 := by
  unfold pyRound2
  rw [roundHalfEven_eq_add_one_of h1 h2]
  push_cast
  ring

/-- C3 counterexample: with similarity `0.79996` (so unrounded score
`79.996`), the analysis of a concrete non-degenerate input pair returns a
report whose `match_score` is exactly `80.0` while its summary is the "Good
match" tier, not "Excellent match" — refuting the claim that a report with
`match_score = 80.0` carries the "Excellent match" summary. -/
theorem summary_boundary_cex :
    ∃ rep : AnalysisReport,
      analyze_resume (19999/25000) ("python dev".toList) ("python".toList) =
        Except.ok rep ∧
      rep.match_score = 80 ∧
      rep.summary = SUMMARY_GOOD ∧
      SUMMARY_GOOD ≠ SUMMARY_EXCELLENT := by
  refine ⟨_, analyze_resume_ok_eq (19999/25000) _ _ (by decide) (by decide) (by decide),
    ?_, ?_, by decide⟩
  · show pyRound2 ((19999/25000 : ℚ) * 100) = 80
    have hfloor : ⌊((19999/25000 : ℚ) * 100) * 100⌋ = 7999 := by
      rw [Int.floor_eq_iff]
      norm_num
    rw [pyRound2_eq_of_floor hfloor (by push_cast; norm_num)]
    norm_num
  · show summaryFor ((19999/25000 : ℚ) * 100) = SUMMARY_GOOD
    unfold summaryFor
    rw [if_neg (by norm_num), if_pos (by norm_num)]

/-- C3 amended: the summary tier is selected from the *unrounded* score
`sim * 100` with inclusive lower bounds 80/60/40 (the code branches before
rounding).  Consequently a stored `match_score` of `79.99` still implies the
"Good match" summary and `39.99` still implies the "Low match" summary (the
rounding error is at most `0.005`), but a stored boundary value such as
`80.0` or `60.0` may carry the next-lower tier (see the counterexample). -/
theorem summary_tiers_amended (sim : ℚ) (r j : Str)
    (hr : clean_text r ≠ []) (hj : clean_text j ≠ [])
    (hv : tfidf_vocabulary (clean_text r) (clean_text j) ≠ []) :
    ∃ rep : AnalysisReport, analyze_resume sim r j = Except.ok rep ∧
      (80 ≤ sim * 100 → rep.summary = SUMMARY_EXCELLENT) ∧
      (60 ≤ sim * 100 → sim * 100 < 80 → rep.summary = SUMMARY_GOOD) ∧
      (40 ≤ sim * 100 → sim * 100 < 60 → rep.summary = SUMMARY_PARTIAL) ∧
      (sim * 100 < 40 → rep.summary = SUMMARY_LOW) ∧
      (rep.match_score = 7999/100 → rep.summary = SUMMARY_GOOD) ∧
      (rep.match_score = 3999/100 → rep.summary = SUMMARY_LOW) := by
  refine ⟨_, analyze_resume_ok_eq sim r j hr hj hv, ?_, ?_, ?_, ?_, ?_, ?_⟩
  · intro h
    show summaryFor (sim * 100) = SUMMARY_EXCELLENT
    unfold summaryFor
    rw [if_pos h]
  · intro h1 h2
    show summaryFor (sim * 100) = SUMMARY_GOOD
    unfold summaryFor
    rw [if_neg (by linarith), if_pos h1]
  · intro h1 h2
    show summaryFor (sim * 100) = SUMMARY_PARTIAL
    unfold summaryFor
    rw [if_neg (by linarith), if_neg (by linarith), if_pos h1]
  · intro h
    show summaryFor (sim * 100) = SUMMARY_LOW
    unfold summaryFor
    rw [if_neg (by linarith), if_neg (by linarith), if_neg (by linarith)]
  · intro hms
    have hn : (roundHalfEven (sim * 100 * 100) : ℚ) = 7999 := by
      have : (roundHalfEven (sim * 100 * 100) : ℚ) / 100 = 7999 / 100 := hms
      field_simp at this
      exact_mod_cast this
    have hn' : roundHalfEven (sim * 100 * 100) = 7999 := by exact_mod_cast hn
    obtain ⟨hlo, hhi⟩ := roundHalfEven_interval hn'
    push_cast at hlo hhi
    show summaryFor (sim * 100) = SUMMARY_GOOD
    unfold summaryFor
    rw [if_neg (by linarith), if_pos (by linarith)]
  · intro hms
    have hn : (roundHalfEven (sim * 100 * 100) : ℚ) = 3999 := by
      have : (roundHalfEven (sim * 100 * 100) : ℚ) / 100 = 3999 / 100 := hms
      field_simp at this
      exact_mod_cast this
    have hn' : roundHalfEven (sim * 100 * 100) = 3999 := by exact_mod_cast hn
    obtain ⟨hlo, hhi⟩ := roundHalfEven_interval hn'
    push_cast at hlo hhi
    show summaryFor (sim * 100) = SUMMARY_LOW
    unfold summaryFor
    rw [if_neg (by linarith), if_neg (by linarith), if_neg (by linarith)]

/-- C3 witness: the amended tier properties at a concrete successful
analysis. -/
theorem summary_tiers_amended_witness :
    (clean_text ("python dev".toList) ≠ [] ∧ clean_text ("python".toList) ≠ [] ∧
      tfidf_vocabulary (clean_text ("python dev".toList))
        (clean_text ("python".toList)) ≠ []) ∧
    ∃ rep : AnalysisReport,
      analyze_resume 0 ("python dev".toList) ("python".toList) = Except.ok rep ∧
      (80 ≤ (0:ℚ) * 100 → rep.summary = SUMMARY_EXCELLENT) ∧
      (60 ≤ (0:ℚ) * 100 → (0:ℚ) * 100 < 80 → rep.summary = SUMMARY_GOOD) ∧
      (40 ≤ (0:ℚ) * 100 → (0:ℚ) * 100 < 60 → rep.summary = SUMMARY_PARTIAL) ∧
      ((0:ℚ) * 100 < 40 → rep.summary = SUMMARY_LOW) ∧
      (rep.match_score = 7999/100 → rep.summary = SUMMARY_GOOD) ∧
      (rep.match_score = 3999/100 → rep.summary = SUMMARY_LOW) :=
  ⟨⟨by decide, by decide, by decide⟩,
    summary_tiers_amended 0 ("python dev".toList) ("python".toList)
      (by decide) (by decide) (by decide)⟩

/-- C5: on the non-degenerate path, the jd keywords are split by the
(case-normalised) substring test against the cleaned resume text:
`skills_present` is exactly the sublist of keywords occurring as substrings
(`List.IsInfix`), the pre-truncation missing list is the complementary
sublist, every keyword lands in exactly one side and both sides only contain
keywords, the report's `skills_missing` is the first 15 entries of the
missing list, and its length is at most 15. -/
theorem keyword_partition (sim : ℚ) (r j : Str)
    (hr : clean_text r ≠ []) (hj : clean_text j ≠ [])
    (hv : tfidf_vocabulary (clean_text r) (clean_text j) ≠ []) :
    ∃ rep : AnalysisReport, analyze_resume sim r j = Except.ok rep ∧
      rep.skills_present = (extract_keywords (clean_text j) 30).filter
        (fun kw => hasSubstr kw ((clean_text r).map Char.toLower)) ∧
      rep.skills_missing = ((extract_keywords (clean_text j) 30).filter
        (fun kw => !(hasSubstr kw ((clean_text r).map Char.toLower)))).take 15 ∧
      (∀ kw, kw ∈ rep.skills_present ↔
        (kw ∈ extract_keywords (clean_text j) 30 ∧
          kw <:+: (clean_text r).map Char.toLower)) ∧
      (∀ kw ∈ extract_keywords (clean_text j) 30,
        (kw ∈ rep.skills_present ∨ kw ∈ (extract_keywords (clean_text j) 30).filter
          (fun kw => !(hasSubstr kw ((clean_text r).map Char.toLower)))) ∧
        ¬(kw ∈ rep.skills_present ∧ kw ∈ (extract_keywords (clean_text j) 30).filter
          (fun kw => !(hasSubstr kw ((clean_text r).map Char.toLower))))) ∧
      (∀ kw, kw ∈ rep.skills_present ∨ kw ∈ (extract_keywords (clean_text j) 30).filter
          (fun kw => !(hasSubstr kw ((clean_text r).map Char.toLower))) →
        kw ∈ extract_keywords (clean_text j) 30) ∧
      rep.skills_present.Sublist (extract_keywords (clean_text j) 30) ∧
      ((extract_keywords (clean_text j) 30).filter
        (fun kw => !(hasSubstr kw ((clean_text r).map Char.toLower)))).Sublist
        (extract_keywords (clean_text j) 30) ∧
      rep.skills_missing.length ≤ 15 := by
  refine ⟨_, analyze_resume_ok_eq sim r j hr hj hv, rfl, rfl, ?_, ?_, ?_, ?_, ?_, ?_⟩
  · intro kw
    show kw ∈ (extract_keywords (clean_text j) 30).filter
        (fun kw => hasSubstr kw ((clean_text r).map Char.toLower)) ↔ _
    rw [List.mem_filter]
    constructor
    · rintro ⟨h1, h2⟩
      exact ⟨h1, hasSubstr_iff.mp h2⟩
    · rintro ⟨h1, h2⟩
      exact ⟨h1, hasSubstr_iff.mpr h2⟩
  · intro kw hkw
    constructor
    · by_cases hsub : hasSubstr kw ((clean_text r).map Char.toLower)
      · exact Or.inl (List.mem_filter.mpr ⟨hkw, hsub⟩)
      · refine Or.inr (List.mem_filter.mpr ⟨hkw, ?_⟩)
        simpa using hsub
    · rintro ⟨h1, h2⟩
      have hp := (List.mem_filter.mp h1).2
      have hm := (List.mem_filter.mp h2).2
      rw [hp] at hm
      simp at hm
  · intro kw h
    rcases h with h | h
    · exact (List.mem_filter.mp h).1
    · exact (List.mem_filter.mp h).1
  · exact List.filter_sublist _
  · exact List.filter_sublist _
  · exact List.length_take_le _ _

/-- C5 witness: the partition properties at a concrete successful
analysis. -/
theorem keyword_partition_witness :
    (clean_text ("python dev".toList) ≠ [] ∧ clean_text ("python".toList) ≠ [] ∧
      tfidf_vocabulary (clean_text ("python dev".toList))
        (clean_text ("python".toList)) ≠ []) ∧
    ∃ rep : AnalysisReport,
      analyze_resume 0 ("python dev".toList) ("python".toList) = Except.ok rep ∧
      rep.skills_present = (extract_keywords (clean_text ("python".toList)) 30).filter
        (fun kw => hasSubstr kw ((clean_text ("python dev".toList)).map Char.toLower)) ∧
      rep.skills_missing = ((extract_keywords (clean_text ("python".toList)) 30).filter
        (fun kw => !(hasSubstr kw ((clean_text ("python dev".toList)).map Char.toLower)))).take 15 ∧
      (∀ kw, kw ∈ rep.skills_present ↔
        (kw ∈ extract_keywords (clean_text ("python".toList)) 30 ∧
          kw <:+: (clean_text ("python dev".toList)).map Char.toLower)) ∧
      (∀ kw ∈ extract_keywords (clean_text ("python".toList)) 30,
        (kw ∈ rep.skills_present ∨
          kw ∈ (extract_keywords (clean_text ("python".toList)) 30).filter
          (fun kw => !(hasSubstr kw ((clean_text ("python dev".toList)).map Char.toLower)))) ∧
        ¬(kw ∈ rep.skills_present ∧
          kw ∈ (extract_keywords (clean_text ("python".toList)) 30).filter
          (fun kw => !(hasSubstr kw ((clean_text ("python dev".toList)).map Char.toLower))))) ∧
      (∀ kw, kw ∈ rep.skills_present ∨
          kw ∈ (extract_keywords (clean_text ("python".toList)) 30).filter
          (fun kw => !(hasSubstr kw ((clean_text ("python dev".toList)).map Char.toLower))) →
        kw ∈ extract_keywords (clean_text ("python".toList)) 30) ∧
      rep.skills_present.Sublist (extract_keywords (clean_text ("python".toList)) 30) ∧
      ((extract_keywords (clean_text ("python".toList)) 30).filter
        (fun kw => !(hasSubstr kw ((clean_text ("python dev".toList)).map Char.toLower)))).Sublist
        (extract_keywords (clean_text ("python".toList)) 30) ∧
      rep.skills_missing.length ≤ 15 :=
  ⟨⟨by decide, by decide, by decide⟩,
    keyword_partition 0 ("python dev".toList) ("python".toList)
      (by decide) (by decide) (by decide)⟩

/-- C1 counterexample: `"a"` and `"b"` both normalise to non-empty strings,
yet the analysis fails: neither document contains a token of two or more word
characters, so the TF-IDF vocabulary is empty and the vectorizer raises
`ValueError` inside `compute_semantic_match` — `analyze_resume` does not
return a report. -/
theorem scorer_raises_cex :
    clean_text ("a".toList) ≠ [] ∧ clean_text ("b".toList) ≠ [] ∧
    analyze_resume 0 ("a".toList) ("b".toList) = Except.error () :=
  ⟨by decide, by decide,
    analyze_resume_error 0 ("a".toList) ("b".toList) (by decide) (by decide) (by decide)⟩

/-- C1 amended: `analyze_resume` returns a report iff either cleaned input is
empty (the short-circuit) or the two-document TF-IDF vocabulary is non-empty;
when both cleaned inputs are non-empty but every analyzer token of both
documents is an English stop word or shorter than two word characters, the
scorer invocation raises instead. -/
theorem analyze_resume_totality_amended (sim : ℚ) (r j : Str) :
    (∃ rep, analyze_resume sim r j = Except.ok rep) ↔
      (clean_text r = [] ∨ clean_text j = [] ∨
        tfidf_vocabulary (clean_text r) (clean_text j) ≠ []) :=
  analyze_resume_isOk_iff sim r j

/-- C9: on any input where the analysis succeeds, `/analyze-pdf` joins the
per-page texts (each `extract_text() or ""`) with a newline, runs
`analyze_resume` on the joined text and the job description, and returns that
report together with `resume_text_excerpt`, the at-most-500-character prefix
of the joined text. -/
theorem analyze_pdf_spec (sim : ℚ) (pages : List (Option Str)) (jd : Str)
    (h : clean_text (List.intercalate ['\n'] (pages.map (fun p => p.getD []))) = [] ∨
         clean_text jd = [] ∨
         tfidf_vocabulary
           (clean_text (List.intercalate ['\n'] (pages.map (fun p => p.getD []))))
           (clean_text jd) ≠ []) :
    ∃ resp : PdfResponse, analyze_pdf sim pages jd = Except.ok resp ∧
      analyze_resume sim (List.intercalate ['\n'] (pages.map (fun p => p.getD []))) jd =
        Except.ok resp.report ∧
      resp.resume_text_excerpt =
        (List.intercalate ['\n'] (pages.map (fun p => p.getD []))).take 500 ∧
      resp.resume_text_excerpt.length ≤ 500 ∧
      resp.resume_text_excerpt <+: List.intercalate ['\n'] (pages.map (fun p => p.getD [])) := by
  obtain ⟨rep, hrep⟩ := (analyze_resume_isOk_iff sim
    (List.intercalate ['\n'] (pages.map (fun p => p.getD []))) jd).mpr h
  refine ⟨PdfResponse.mk
      ((List.intercalate ['\n'] (pages.map (fun p => p.getD []))).take 500) rep,
      ?_, hrep, rfl, List.length_take_le _ _, List.take_prefix _ _⟩
  simp only [analyze_pdf]
  rw [hrep]

/-- C9 witness: the endpoint behaviour on a concrete two-page document. -/
theorem analyze_pdf_spec_witness :
    (clean_text (List.intercalate ['\n']
        (([some ("python dev".toList), none] : List (Option Str)).map
          (fun p => p.getD []))) = [] ∨
      clean_text ("python".toList) = [] ∨
      tfidf_vocabulary
        (clean_text (List.intercalate ['\n']
          (([some ("python dev".toList), none] : List (Option Str)).map
            (fun p => p.getD []))))
        (clean_text ("python".toList)) ≠ []) ∧
    ∃ resp : PdfResponse,
      analyze_pdf 0 ([some ("python dev".toList), none] : List (Option Str))
        ("python".toList) = Except.ok resp ∧
      analyze_resume 0 (List.intercalate ['\n']
          (([some ("python dev".toList), none] : List (Option Str)).map
            (fun p => p.getD []))) ("python".toList) = Except.ok resp.report ∧
      resp.resume_text_excerpt =
        (List.intercalate ['\n']
          (([some ("python dev".toList), none] : List (Option Str)).map
            (fun p => p.getD []))).take 500 ∧
      resp.resume_text_excerpt.length ≤ 500 ∧
      resp.resume_text_excerpt <+:
        List.intercalate ['\n']
          (([some ("python dev".toList), none] : List (Option Str)).map
            (fun p => p.getD [])) :=
  ⟨Or.inr (Or.inr (by decide)),
    analyze_pdf_spec 0 ([some ("python dev".toList), none] : List (Option Str))
      ("python".toList) (Or.inr (Or.inr (by decide)))⟩
